import Mathlib

/-!
# Streaming 3-bit pattern counter: three matchers and their equivalence

A shallow embedding of `src/main.c`: the state machine (`method1_pattern_match`),
the sliding bitmask (`method2_pattern_match`) and the lookup table
(`method3_init`, `method3_pattern_match`), together with the accumulation loop of
`main`, followed by theorems relating the three to each other and to the
MSB-first bit stream of the input.

Conventions of the embedding:
* `unsigned char` and `unsigned short` values are natural numbers; every
  conversion to one of these types in the source is an explicit `% 256` or
  `% 65536` here. A sample is a natural number, and theorems about bytes assume
  `sample < 256`.
* `int` values are integers. The per-call counter never exceeds 8 and `pos++` is
  only executed for `pos ∈ {0, 1}`, so no `int` operation of the matchers wraps.
* `int count_lut[1024]` is a vector of exactly 1024 integers. Reading it is
  modelled as a fallible lookup, so an out-of-range index shows up as `none`.
-/

namespace BitPattern

/-! ## Data model -/

/-- The constant `#define pattern 0b110`. -/
def pattern : Nat := 0b110

/-- The C type `struct method1_state { int pos; }`. -/
structure method1_state where
  pos : Int
  deriving DecidableEq

/-- The C type `struct method2_state { unsigned char prev; }`. -/
structure method2_state where
  prev : Nat
  deriving DecidableEq

/-- The C type `struct method3_state { unsigned char prev; int count_lut[1024]; }`. -/
structure method3_state where
  prev : Nat
  count_lut : Mathlib.Vector Int 1024
  deriving DecidableEq

/-! ## Method 1: state machine -/

/-- The `switch (state->pos)` statement of `method1_pattern_match`, for one bit. -/
def method1_switch (state : method1_state) (counter : Int) (bit : Nat) :
    method1_state × Int :=
  if state.pos = 0 ∨ state.pos = 1 then
    if bit ≠ 0 then ({ pos := state.pos + 1 }, counter)
    else ({ pos := 0 }, counter)
  else if state.pos = 2 then
    if bit ≠ 0 then (state, counter)
    else ({ pos := 0 }, counter + 1)
  else (state, counter)

/-- The loop `for (int i = 7; i >= 0; i--)` of `method1_pattern_match`:
`method1_loop sample n r` runs the iterations `i = n - 1, ..., 0`. -/
def method1_loop (sample : Nat) : Nat → method1_state × Int → method1_state × Int
  | 0, r => r
  | i + 1, r =>
    let bit := (sample &&& (1 <<< i)) % 256
    method1_loop sample i (method1_switch r.1 r.2 bit)

/-- The function `method1_pattern_match`: new state and returned counter. -/
def method1_pattern_match (state : method1_state) (sample : Nat) : method1_state × Int :=
  method1_loop sample 8 (state, 0)

/-! ## Method 2: sliding bitmask -/

/-- The loop `for (int i = 7; i >= 0; i--)` of `method2_pattern_match`:
`method2_loop c n counter` runs the iterations `i = n - 1, ..., 0`. -/
def method2_loop (combined_samples : Nat) : Nat → Int → Int
  | 0, counter => counter
  | i + 1, counter =>
    method2_loop combined_samples i
      (if (combined_samples >>> i) &&& 0x07 = pattern then counter + 1 else counter)

/-- The function `method2_pattern_match`: new state and returned counter. -/
def method2_pattern_match (state : method2_state) (sample : Nat) : method2_state × Int :=
  let combined_samples := ((state.prev <<< 8) ||| sample) % 65536
  let counter := method2_loop combined_samples 8 0
  ({ prev := sample }, counter)

/-! ## Method 3: lookup table -/

/-- The `while` loop of `method3_init`, entered with the given value of the
`unsigned short combined_samples`. The bound is
`sizeof(state->count_lut) / sizeof(state->count_lut[0]) = 1024`. -/
def method3_init_loop (state : method3_state) (combined_samples : Nat) : method3_state :=
  if h : combined_samples < 1024 then
    let m2_state : method2_state := { prev := 0x00 }
    let r1 := method2_pattern_match m2_state ((combined_samples >>> 8) % 256)
    let r2 := method2_pattern_match r1.1 ((combined_samples &&& 0xFF) % 256)
    let counter := r1.2 + r2.2
    method3_init_loop
      { state with count_lut := state.count_lut.set ⟨combined_samples, h⟩ counter }
      ((combined_samples + 1) % 65536)
  else state
termination_by 1024 - combined_samples
decreasing_by omega

/-- The function `method3_init`. -/
def method3_init (state : method3_state) : method3_state :=
  method3_init_loop state 0

/-- The index computed by `method3_pattern_match`:
`(((unsigned short)state->prev << 8) | sample) & 0x3FF`, stored in an `unsigned short`. -/
def method3_index (prev sample : Nat) : Nat :=
  (((prev <<< 8) ||| sample) &&& 0x3FF) % 65536

/-- The function `method3_pattern_match`: new state and returned counter, or
`none` when the table is read outside its 1024 entries. -/
def method3_pattern_match (state : method3_state) (sample : Nat) :
    Option (method3_state × Int) :=
  let combined_samples := method3_index state.prev sample
  match state.count_lut.toList[combined_samples]? with
  | none => none
  | some counter => some ({ state with prev := sample }, counter)

/-! ## The accumulation loop of `main` -/

/-- The statements `count = fn(state, samples[i]); total_count += count;` of `main`,
iterated over the samples, for the state machine. -/
def run_method1 (state : method1_state) (total_count : Int) :
    List Nat → method1_state × Int
  | [] => (state, total_count)
  | sample :: rest =>
    let r := method1_pattern_match state sample
    run_method1 r.1 (total_count + r.2) rest

/-- The accumulation loop of `main` for the sliding bitmask. -/
def run_method2 (state : method2_state) (total_count : Int) :
    List Nat → method2_state × Int
  | [] => (state, total_count)
  | sample :: rest =>
    let r := method2_pattern_match state sample
    run_method2 r.1 (total_count + r.2) rest

/-- The accumulation loop of `main` for the lookup table. -/
def run_method3 (state : method3_state) (total_count : Int) :
    List Nat → Option (method3_state × Int)
  | [] => some (state, total_count)
  | sample :: rest =>
    match method3_pattern_match state sample with
    | none => none
    | some r => run_method3 r.1 (total_count + r.2) rest

/-- The initial states of `main`: `{.pos = 0}`. -/
def m1_state : method1_state := { pos := 0 }

/-- The initial states of `main`: `{.prev = 0x00}`. -/
def m2_state : method2_state := { prev := 0x00 }

/-- The state `{.prev = 0x00}` of `main` before `method3_init` is called on it:
the omitted member `count_lut` is zero-initialised. -/
def m3_state : method3_state := { prev := 0x00, count_lut := Mathlib.Vector.replicate 1024 0 }

/-! ## Specification-level definitions -/

/-- The value `method3_init` computes for index `c`: the two calls of method 2
made by one iteration of its loop. -/
def lut_entry (c : Nat) : Int :=
  let r1 := method2_pattern_match { prev := 0x00 } ((c >>> 8) % 256)
  let r2 := method2_pattern_match r1.1 ((c &&& 0xFF) % 256)
  r1.2 + r2.2

/-- Abstraction from the previous byte to the automaton position: the number of
trailing 1 bits of `prev`, capped at 2. -/
def pos_of_prev (prev : Nat) : Int :=
  if prev &&& 1 = 0 then 0 else if prev &&& 3 = 1 then 1 else 2

/-- The table holds, at every index, the value `method3_init` computes. -/
def table_built (count_lut : Mathlib.Vector Int 1024) : Prop :=
  ∀ k, k < 1024 → count_lut.toList[k]? = some (lut_entry k)

/-- The bits of one byte, most significant first. -/
def byte_bits (b : Nat) : List Bool :=
  [b.testBit 7, b.testBit 6, b.testBit 5, b.testBit 4,
   b.testBit 3, b.testBit 2, b.testBit 1, b.testBit 0]

/-- The bit stream of a byte sequence: the bits of each byte, most significant
first, concatenated. -/
def bit_stream (S : List Nat) : List Bool :=
  S.flatMap byte_bits

/-- An occurrence of the pattern `1,1,0` ends at position `k` of the stream. -/
def occurs_at (bits : List Bool) (k : Nat) : Prop :=
  2 ≤ k ∧ bits[k - 2]? = some true ∧ bits[k - 1]? = some true ∧ bits[k]? = some false

instance (bits : List Bool) (k : Nat) : Decidable (occurs_at bits k) := by
  unfold occurs_at; infer_instance

/-- The number of occurrences of `1,1,0` whose last bit is at a position `k`
with `lo ≤ k < hi`. -/
def occurrences (bits : List Bool) (lo hi : Nat) : Nat :=
  ((Finset.Ico lo hi).filter (occurs_at bits)).card

/-- Bit `t` of the 10-bit context made of the two low bits of `prev` followed by
the 8 bits of `sample`, most significant first. -/
def ctx_bit (prev sample t : Nat) : Bool :=
  if t < 2 then prev.testBit (1 - t) else sample.testBit (9 - t)

/-- The number of windows `1,1,0` of the 10-bit context that end inside the sample. -/
def window_count (prev sample : Nat) : Nat :=
  ((Finset.range 8).filter (fun j =>
    ctx_bit prev sample j = true ∧ ctx_bit prev sample (j + 1) = true
      ∧ ctx_bit prev sample (j + 2) = false)).card

/-- The previous byte seen by a matcher after `S`: the last byte, or `0x00`. -/
def last_byte (S : List Nat) : Nat :=
  S.getLast?.getD 0x00

/-! ## Instrumented loops and the specified automaton -/

/-- The three states of the specified automaton: "0 or reset", "matched first 1",
"matched second 1 (11 seen)". -/
inductive spec_state where
  | reset
  | first_one
  | second_one
  deriving DecidableEq

/-- The number `0`, `1` or `2` of a state of the specified automaton. -/
def spec_state.to_pos : spec_state → Int
  | .reset => 0
  | .first_one => 1
  | .second_one => 2

/-- One step of the specified automaton: the next state, and whether the step
completes the pattern. In state 0 or 1 a 1 bit advances to the next state and a
0 bit resets to state 0; in state 2 a 1 bit remains at state 2 and a 0 bit is a
match and resets to state 0. -/
def spec_step : spec_state → Bool → spec_state × Bool
  | .reset, true => (.first_one, false)
  | .first_one, true => (.second_one, false)
  | .reset, false => (.reset, false)
  | .first_one, false => (.reset, false)
  | .second_one, true => (.second_one, false)
  | .second_one, false => (.reset, true)

/-- The specified automaton folded over a list of bits: the final state and the
number of steps taken in state 2 on a 0 bit. -/
def spec_run : spec_state → List Bool → spec_state × Nat
  | q, [] => (q, 0)
  | q, bit :: bits =>
    let r := spec_run (spec_step q bit).1 bits
    (r.1, (if (spec_step q bit).2 then 1 else 0) + r.2)

/-- The values of `state->pos` on which the `switch` of `method1_pattern_match`
is executed, one per iteration of its loop, in order. -/
def method1_loop_positions (sample : Nat) : Nat → method1_state × Int → List Int
  | 0, _ => []
  | i + 1, r =>
    let bit := (sample &&& (1 <<< i)) % 256
    r.1.pos :: method1_loop_positions sample i (method1_switch r.1 r.2 bit)

/-- The number of consecutive 1 bits at the end of a bit stream. -/
def trailing_ones (bits : List Bool) : Nat :=
  (bits.reverse.takeWhile (fun bit => bit)).length

/-- The `while` loop of `method3_init` together with the list of the values
`combined_samples` takes at the start of each iteration, in order; each is the
index written by `state->count_lut[combined_samples] = counter` in that iteration. -/
def method3_init_loop_trace (state : method3_state) (combined_samples : Nat) :
    method3_state × List Nat :=
  if h : combined_samples < 1024 then
    let m2_state : method2_state := { prev := 0x00 }
    let r1 := method2_pattern_match m2_state ((combined_samples >>> 8) % 256)
    let r2 := method2_pattern_match r1.1 ((combined_samples &&& 0xFF) % 256)
    let counter := r1.2 + r2.2
    let out := method3_init_loop_trace
      { state with count_lut := state.count_lut.set ⟨combined_samples, h⟩ counter }
      ((combined_samples + 1) % 65536)
    (out.1, combined_samples :: out.2)
  else (state, [])
termination_by 1024 - combined_samples
decreasing_by omega

/-! ## Auxiliary lemmas -/

/-- With a byte in the low half, `(prev << 8) | sample` is `256 * prev + sample`. -/
theorem shl_or_eq_add (prev sample : Nat) (hs : sample < 256) :
    (prev <<< 8) ||| sample = 256 * prev + sample := by
  rw [Nat.shiftLeft_eq, Nat.mul_comm]
  exact (Nat.mul_add_lt_is_or (i := 8) hs prev).symm

/-- The test `((c >> i) & 0x07) == pattern` in arithmetic form. -/
theorem window_test_iff (c i : Nat) :
    ((c >>> i) &&& 0x07 = pattern) ↔ c / 2 ^ i % 8 = 6 := by
  have h : (c >>> i) &&& 0x07 = c / 2 ^ i % 8 := by
    rw [Nat.shiftRight_eq_div_pow]
    exact Nat.and_pow_two_sub_one_eq_mod _ 3
  rw [h]; rfl

/-- The windows examined by the loop of method 2 only involve the low 10 bits. -/
theorem method2_loop_mod (c : Nat) : ∀ n, n ≤ 8 → ∀ counter,
    method2_loop (c % 1024) n counter = method2_loop c n counter := by
  intro n
  induction n with
  | zero => intro _ counter; rfl
  | succ i ih =>
    intro hi counter
    have hw : ((c % 1024) >>> i) &&& 0x07 = pattern ↔ (c >>> i) &&& 0x07 = pattern := by
      rw [window_test_iff, window_test_iff]
      have hi8 : i < 8 := by omega
      interval_cases i <;> simp only [Nat.reducePow] <;> omega
    simp only [method2_loop, hw]
    exact ih (by omega) _

/-- The counter of method 2 depends on the previous byte only through `prev % 4`. -/
theorem method2_count_mod4 (prev sample : Nat) (hs : sample < 256) :
    (method2_pattern_match { prev := prev } sample).2
      = (method2_pattern_match { prev := prev % 4 } sample).2 := by
  simp only [method2_pattern_match, shl_or_eq_add _ _ hs]
  rw [← method2_loop_mod ((256 * prev + sample) % 65536) 8 (le_refl _),
    ← method2_loop_mod ((256 * (prev % 4) + sample) % 65536) 8 (le_refl _)]
  congr 1
  omega

theorem method3_init_loop_unfold (state : method3_state) (c : Nat) (h : c < 1024) :
    method3_init_loop state c
      = method3_init_loop
          { state with count_lut := state.count_lut.set ⟨c, h⟩ (lut_entry c) } (c + 1) := by
  rw [method3_init_loop, dif_pos h]
  have : (c + 1) % 65536 = c + 1 := by omega
  simp only [this, lut_entry]

theorem method3_init_loop_exit (state : method3_state) (c : Nat) (h : ¬ c < 1024) :
    method3_init_loop state c = state := by
  rw [method3_init_loop, dif_neg h]

/-- The loop of `method3_init` never touches `prev`. -/
theorem method3_init_loop_prev : ∀ (n c : Nat) (state : method3_state), 1024 - c = n →
    (method3_init_loop state c).prev = state.prev := by
  intro n
  induction n with
  | zero =>
    intro c state hn
    rw [method3_init_loop_exit state c (by omega)]
  | succ n ih =>
    intro c state hn
    rw [method3_init_loop_unfold state c (by omega), ih (c + 1) _ (by omega)]

/-- Loop invariant of `method3_init`: entered at `c`, the loop overwrites the
entries `c, ..., 1023` with `lut_entry` and keeps the entries below `c`. -/
theorem method3_init_loop_lookup : ∀ (n c : Nat) (state : method3_state), 1024 - c = n →
    ∀ k, (method3_init_loop state c).count_lut.toList[k]?
      = if c ≤ k ∧ k < 1024 then some (lut_entry k) else state.count_lut.toList[k]? := by
  intro n
  induction n with
  | zero =>
    intro c state hn k
    rw [method3_init_loop_exit state c (by omega), if_neg (by omega)]
  | succ n ih =>
    intro c state hn k
    have hc : c < 1024 := by omega
    rw [method3_init_loop_unfold state c hc, ih (c + 1) _ (by omega) k]
    by_cases hk : c + 1 ≤ k ∧ k < 1024
    · rw [if_pos hk, if_pos ⟨by omega, hk.2⟩]
    · rw [if_neg hk]
      simp only [Mathlib.Vector.toList_set]
      by_cases hkc : k = c
      · subst hkc
        rw [if_pos ⟨le_refl _, hc⟩]
        exact List.getElem?_set_self (by simp [hc])
      · rw [if_neg (by omega), List.getElem?_set_ne (by omega)]

theorem pos_of_prev_mod4 (prev : Nat) : pos_of_prev (prev % 4) = pos_of_prev prev := by
  have h1 : ∀ x : Nat, x &&& 1 = x % 2 := fun x => Nat.and_pow_two_sub_one_eq_mod x 1
  have h3 : ∀ x : Nat, x &&& 3 = x % 4 := fun x => Nat.and_pow_two_sub_one_eq_mod x 2
  simp only [pos_of_prev, h1, h3]
  have e1 : prev % 4 % 2 = prev % 2 := by omega
  have e2 : prev % 4 % 4 = prev % 4 := by omega
  rw [e1, e2]

set_option maxRecDepth 100000 in
/-- Methods 1 and 2 agree on one call, checked over the 4 contexts and 256 samples. -/
theorem step_agree_small : ∀ p, p < 4 → ∀ s, s < 256 →
    method1_pattern_match { pos := pos_of_prev p } s
      = ({ pos := pos_of_prev s }, (method2_pattern_match { prev := p } s).2) := by
  decide

/-- One call of method 1 from the position matching `prev` returns the counter
of method 2 from `prev`, and ends in the position matching the sample. -/
theorem method1_step_eq_method2 (prev sample : Nat) (hs : sample < 256) :
    method1_pattern_match { pos := pos_of_prev prev } sample
      = ({ pos := pos_of_prev sample }, (method2_pattern_match { prev := prev } sample).2) := by
  rw [method2_count_mod4 prev sample hs, ← pos_of_prev_mod4 prev]
  exact step_agree_small (prev % 4) (Nat.mod_lt _ (by decide)) sample hs

/-- The first pass of the table build, over the high part of the index, finds nothing. -/
theorem first_pass_zero : ∀ h, h < 4 →
    (method2_pattern_match { prev := 0x00 } h).2 = 0 := by
  decide

/-- The table entry for `c` is the counter of method 2 for the byte pair of `c`. -/
theorem lut_entry_eq (c : Nat) (hc : c < 1024) :
    lut_entry c = (method2_pattern_match { prev := c >>> 8 } (c &&& 0xFF)).2 := by
  have hhi : (c >>> 8) % 256 = c >>> 8 := by
    rw [Nat.shiftRight_eq_div_pow]; omega
  have hlo : (c &&& 0xFF) % 256 = c &&& 0xFF := by
    rw [Nat.and_pow_two_sub_one_eq_mod c 8]; omega
  have h4 : c >>> 8 < 4 := by
    rw [Nat.shiftRight_eq_div_pow]; omega
  simp only [lut_entry, hhi, hlo]
  rw [first_pass_zero _ h4, zero_add]
  rfl

/-- The index used by method 3, in arithmetic form. -/
theorem method3_index_eq (prev sample : Nat) (hs : sample < 256) :
    method3_index prev sample = 256 * (prev % 4) + sample := by
  unfold method3_index
  rw [shl_or_eq_add _ _ hs, Nat.and_pow_two_sub_one_eq_mod _ 10]
  omega

theorem method3_index_lt (prev sample : Nat) : method3_index prev sample < 1024 := by
  unfold method3_index
  rw [Nat.and_pow_two_sub_one_eq_mod _ 10]
  omega

/-- The entry method 3 looks up is the counter method 2 returns. -/
theorem lut_entry_index (prev sample : Nat) (hs : sample < 256) :
    lut_entry (method3_index prev sample)
      = (method2_pattern_match { prev := prev } sample).2 := by
  rw [lut_entry_eq _ (method3_index_lt prev sample), method3_index_eq _ _ hs,
    method2_count_mod4 prev sample hs]
  have hhi : (256 * (prev % 4) + sample) >>> 8 = prev % 4 := by
    rw [Nat.shiftRight_eq_div_pow]; omega
  have hlo : (256 * (prev % 4) + sample) &&& 0xFF = sample := by
    rw [Nat.and_pow_two_sub_one_eq_mod _ 8]; omega
  rw [hhi, hlo]

/-- After `method3_init` every entry of the table is built. -/
theorem table_built_init (state : method3_state) :
    table_built (method3_init state).count_lut := by
  intro k hk
  unfold method3_init
  rw [method3_init_loop_lookup 1024 0 state rfl k, if_pos ⟨Nat.zero_le _, hk⟩]

/-- One call of method 3 on a built table: the counter of method 2, `prev`
replaced by the sample, table untouched. -/
theorem method3_step_eq_method2 (prev : Nat) (lut : Mathlib.Vector Int 1024)
    (hb : table_built lut) (sample : Nat) (hs : sample < 256) :
    method3_pattern_match { prev := prev, count_lut := lut } sample
      = some ({ prev := sample, count_lut := lut },
          (method2_pattern_match { prev := prev } sample).2) := by
  unfold method3_pattern_match
  simp only [hb _ (method3_index_lt prev sample), lut_entry_index _ _ hs]

set_option maxRecDepth 100000 in
theorem method2_window_small : ∀ p, p < 4 → ∀ s, s < 256 →
    (method2_pattern_match { prev := p } s).2 = (window_count p s : Int) := by
  decide

theorem byte_bits_length (b : Nat) : (byte_bits b).length = 8 := rfl

theorem bit_stream_append (S T : List Nat) :
    bit_stream (S ++ T) = bit_stream S ++ bit_stream T := by
  simp [bit_stream]

theorem bit_stream_singleton (b : Nat) : bit_stream [b] = byte_bits b := by
  simp [bit_stream]

theorem bit_stream_length (S : List Nat) : (bit_stream S).length = 8 * S.length := by
  induction S with
  | nil => rfl
  | cons b S ih =>
    have : bit_stream (b :: S) = byte_bits b ++ bit_stream S := by simp [bit_stream]
    rw [this, List.length_append, ih, byte_bits_length, List.length_cons]
    omega

/-- Bit `r` (counted from the most significant) of a byte, read from its bit list. -/
theorem byte_bits_get (b r : Nat) (hr : r < 8) :
    (byte_bits b)[r]? = some (b.testBit (7 - r)) := by
  interval_cases r <;> rfl

/-- The stream of `S ++ [b]` read inside the last byte. -/
theorem bit_stream_get_last (S : List Nat) (b r : Nat) (hr : r < 8) :
    (bit_stream (S ++ [b]))[8 * S.length + r]? = some (b.testBit (7 - r)) := by
  rw [bit_stream_append, bit_stream_singleton,
    List.getElem?_append_right (by rw [bit_stream_length]; omega), bit_stream_length]
  have : 8 * S.length + r - 8 * S.length = r := by omega
  rw [this, byte_bits_get b r hr]

/-- The stream of `S ++ [b]` read below the last byte is the stream of `S`. -/
theorem bit_stream_get_before_last (S : List Nat) (b k : Nat) (hk : k < 8 * S.length) :
    (bit_stream (S ++ [b]))[k]? = (bit_stream S)[k]? := by
  rw [bit_stream_append, List.getElem?_append_left (by rw [bit_stream_length]; exact hk)]

/-- The 10-bit context of the last byte of `S ++ [b]`, read from the stream. -/
theorem bit_stream_get_ctx (S : List Nat) (b t : Nat) (ht : t < 10)
    (h : 1 ≤ S.length ∨ 2 ≤ t) :
    (bit_stream (S ++ [b]))[8 * S.length + t - 2]? = some (ctx_bit (last_byte S) b t) := by
  by_cases ht2 : t < 2
  · have hS : 1 ≤ S.length := by omega
    obtain ⟨S', p, rfl⟩ : ∃ S' p, S = S' ++ [p] := by
      rcases List.eq_nil_or_concat S with h0 | ⟨S', p, h1⟩
      · subst h0; simp at hS
      · exact ⟨S', p, by rw [h1, List.concat_eq_append]⟩
    have hlen : (S' ++ [p]).length = S'.length + 1 := by simp
    rw [bit_stream_get_before_last _ _ _ (by rw [hlen]; omega)]
    have hidx : 8 * (S' ++ [p]).length + t - 2 = 8 * S'.length + (6 + t) := by
      rw [hlen]; omega
    rw [hidx, bit_stream_get_last S' p (6 + t) (by omega)]
    have hlast : last_byte (S' ++ [p]) = p := by simp [last_byte]
    simp only [ctx_bit, if_pos ht2, hlast]
    congr 2
    omega
  · have hidx : 8 * S.length + t - 2 = 8 * S.length + (t - 2) := by omega
    rw [hidx, bit_stream_get_last S b (t - 2) (by omega)]
    simp only [ctx_bit, if_neg ht2]
    congr 2
    omega

/-- An occurrence ending in the last byte, read from the 10-bit context. -/
theorem occurs_at_last (S : List Nat) (b j : Nat) (hj : j < 8) :
    occurs_at (bit_stream (S ++ [b])) (8 * S.length + j)
      ↔ (ctx_bit (last_byte S) b j = true ∧ ctx_bit (last_byte S) b (j + 1) = true
          ∧ ctx_bit (last_byte S) b (j + 2) = false) := by
  by_cases h : 1 ≤ S.length ∨ 2 ≤ j
  · have e1 : 8 * S.length + j - 1 = 8 * S.length + (j + 1) - 2 := by omega
    have e2 : 8 * S.length + j = 8 * S.length + (j + 2) - 2 := by omega
    have h2 : 2 ≤ 8 * S.length + j := by omega
    unfold occurs_at
    rw [e1, bit_stream_get_ctx S b (j + 1) (by omega) (by omega),
      bit_stream_get_ctx S b j (by omega) h]
    nth_rewrite 2 [e2]
    rw [bit_stream_get_ctx S b (j + 2) (by omega) (by omega)]
    simp [h2]
  · have hS : S = [] := by
      cases S with
      | nil => rfl
      | cons a S => simp at h
    subst hS
    have hj2 : j < 2 := by omega
    have hc : ctx_bit (last_byte []) b j = false := by
      simp [ctx_bit, last_byte, hj2]
    unfold occurs_at
    simp only [hc]
    constructor
    · rintro ⟨h2, -⟩
      simp at h2
      omega
    · rintro ⟨h0, -⟩
      exact absurd h0 (by simp)

/-- The occurrences that end in the last byte are the windows of its 10-bit context. -/
theorem occurrences_last (S : List Nat) (b : Nat) :
    occurrences (bit_stream (S ++ [b])) (8 * S.length) (8 * S.length + 8)
      = window_count (last_byte S) b := by
  unfold occurrences window_count
  rw [Finset.card_filter, Finset.card_filter, Finset.sum_Ico_eq_sum_range]
  have h8 : 8 * S.length + 8 - 8 * S.length = 8 := by omega
  rw [h8]
  apply Finset.sum_congr rfl
  intro j hj
  have hj8 : j < 8 := Finset.mem_range.mp hj
  exact if_congr (occurs_at_last S b j hj8) rfl rfl

/-- The occurrences that end before the last byte do not depend on it. -/
theorem occurrences_before_last (S : List Nat) (b : Nat) :
    occurrences (bit_stream (S ++ [b])) 0 (8 * S.length)
      = occurrences (bit_stream S) 0 (8 * S.length) := by
  unfold occurrences
  apply congrArg
  apply Finset.filter_congr
  intro k hk
  have hk8 : k < 8 * S.length := (Finset.mem_Ico.mp hk).2
  unfold occurs_at
  rw [bit_stream_get_before_last S b k hk8, bit_stream_get_before_last S b (k - 1) (by omega),
    bit_stream_get_before_last S b (k - 2) (by omega)]

/-- No occurrence ends at position 0 or 1. -/
theorem occurrences_from_two (bits : List Bool) (hi : Nat) :
    occurrences bits 2 hi = occurrences bits 0 hi := by
  unfold occurrences
  apply congrArg
  ext k
  simp only [Finset.mem_filter, Finset.mem_Ico, occurs_at]
  constructor
  · rintro ⟨⟨_, h⟩, h'⟩; exact ⟨⟨Nat.zero_le _, h⟩, h'⟩
  · rintro ⟨⟨_, h⟩, h'⟩; exact ⟨⟨h'.1, h⟩, h'⟩

/-- Splitting the count of occurrences at an intermediate position. -/
theorem occurrences_split (bits : List Bool) (mid hi : Nat) (h : mid ≤ hi) :
    occurrences bits 0 hi = occurrences bits 0 mid + occurrences bits mid hi := by
  unfold occurrences
  rw [Finset.card_filter, Finset.card_filter, Finset.card_filter,
    Finset.sum_Ico_consecutive _ (Nat.zero_le _) h]

theorem ctx_bit_mod4 (prev sample t : Nat) :
    ctx_bit (prev % 4) sample t = ctx_bit prev sample t := by
  unfold ctx_bit
  by_cases ht : t < 2
  · rw [if_pos ht, if_pos ht]
    have := Nat.testBit_mod_two_pow prev 2 (1 - t)
    simp only [Nat.reducePow] at this
    rw [this]
    have : 1 - t < 2 := by omega
    simp [this]
  · rw [if_neg ht, if_neg ht]

theorem window_count_mod4 (prev sample : Nat) :
    window_count (prev % 4) sample = window_count prev sample := by
  unfold window_count
  simp only [ctx_bit_mod4]

/-- The counter of method 2 is the number of windows `1,1,0` of the context. -/
theorem method2_count_eq_window (prev sample : Nat) (hs : sample < 256) :
    (method2_pattern_match { prev := prev } sample).2 = (window_count prev sample : Int) := by
  rw [method2_count_mod4 prev sample hs, ← window_count_mod4]
  exact method2_window_small (prev % 4) (Nat.mod_lt _ (by decide)) sample hs

theorem run_method1_append (state : method1_state) (total : Int) (S T : List Nat) :
    run_method1 state total (S ++ T)
      = run_method1 (run_method1 state total S).1 (run_method1 state total S).2 T := by
  induction S generalizing state total with
  | nil => rfl
  | cons s S ih =>
    exact ih (method1_pattern_match state s).1 (total + (method1_pattern_match state s).2)

theorem run_method2_append (state : method2_state) (total : Int) (S T : List Nat) :
    run_method2 state total (S ++ T)
      = run_method2 (run_method2 state total S).1 (run_method2 state total S).2 T := by
  induction S generalizing state total with
  | nil => rfl
  | cons s S ih =>
    exact ih (method2_pattern_match state s).1 (total + (method2_pattern_match state s).2)

/-- A lookup of method 3 always succeeds, whatever the table holds; it replaces
`prev` by the sample and keeps the table. -/
theorem method3_pattern_match_some (state : method3_state) (sample : Nat) :
    ∃ counter, method3_pattern_match state sample
      = some ({ prev := sample, count_lut := state.count_lut }, counter) := by
  have hlt : method3_index state.prev sample < state.count_lut.toList.length := by
    rw [Mathlib.Vector.toList_length]
    exact method3_index_lt _ _
  refine ⟨state.count_lut.toList[method3_index state.prev sample], ?_⟩
  unfold method3_pattern_match
  simp only [List.getElem?_eq_getElem hlt]

/-- The accumulation loop of method 3 always runs to the end and keeps the table. -/
theorem run_method3_some (state : method3_state) (total : Int) (S : List Nat) :
    ∃ r, run_method3 state total S = some r ∧ r.1.count_lut = state.count_lut := by
  induction S generalizing state total with
  | nil => exact ⟨(state, total), rfl, rfl⟩
  | cons s S ih =>
    obtain ⟨c, hc⟩ := method3_pattern_match_some state s
    obtain ⟨r, hr, ht⟩ := ih { prev := s, count_lut := state.count_lut } (total + c)
    exact ⟨r, by simp only [run_method3, hc, hr], ht⟩

theorem run_method3_append (state : method3_state) (total : Int) (S T : List Nat) :
    run_method3 state total (S ++ T)
      = (run_method3 state total S).bind (fun r => run_method3 r.1 r.2 T) := by
  induction S generalizing state total with
  | nil => rfl
  | cons s S ih =>
    simp only [List.cons_append, run_method3]
    cases method3_pattern_match state s with
    | none => rfl
    | some r => exact ih r.1 (total + r.2)

theorem run_method1_cons (state : method1_state) (total : Int) (s : Nat) (S : List Nat) :
    run_method1 state total (s :: S)
      = run_method1 (method1_pattern_match state s).1
          (total + (method1_pattern_match state s).2) S := rfl

theorem run_method2_cons (state : method2_state) (total : Int) (s : Nat) (S : List Nat) :
    run_method2 state total (s :: S)
      = run_method2 { prev := s } (total + (method2_pattern_match state s).2) S := rfl

/-- After a non-empty run, method 2 remembers the last byte. -/
theorem run_method2_prev (state : method2_state) (total : Int) (S : List Nat) :
    (run_method2 state total S).1.prev = S.getLast?.getD state.prev := by
  induction S generalizing state total with
  | nil => rfl
  | cons s S ih =>
    rw [run_method2_cons, ih]
    cases S with
    | nil => rfl
    | cons a S =>
      rw [List.getLast?_cons_cons, List.getLast?_eq_getLast (a :: S) (by simp)]
      rfl

/-- Methods 1 and 2 in lockstep over a byte sequence. -/
theorem run_method1_eq_method2 (S : List Nat) (hS : ∀ b ∈ S, b < 256) (prev : Nat)
    (total : Int) :
    run_method1 { pos := pos_of_prev prev } total S
      = ({ pos := pos_of_prev (run_method2 { prev := prev } total S).1.prev },
          (run_method2 { prev := prev } total S).2) := by
  induction S generalizing prev total with
  | nil => rfl
  | cons s S ih =>
    have hs : s < 256 := hS s (List.mem_cons_self _ _)
    have hS' : ∀ b ∈ S, b < 256 := fun b hb => hS b (List.mem_cons_of_mem _ hb)
    rw [run_method1_cons, run_method2_cons, method1_step_eq_method2 prev s hs]
    exact ih hS' s _

/-- Methods 3 and 2 in lockstep over a byte sequence, on a built table. -/
theorem run_method3_eq_method2 (S : List Nat) (hS : ∀ b ∈ S, b < 256)
    (prev : Nat) (lut : Mathlib.Vector Int 1024) (hb : table_built lut) (total : Int) :
    run_method3 { prev := prev, count_lut := lut } total S
      = some ({ prev := (run_method2 { prev := prev } total S).1.prev, count_lut := lut },
              (run_method2 { prev := prev } total S).2) := by
  induction S generalizing prev total with
  | nil => rfl
  | cons s S ih =>
    have hs : s < 256 := hS s (List.mem_cons_self _ _)
    have hS' : ∀ b ∈ S, b < 256 := fun b hb => hS b (List.mem_cons_of_mem _ hb)
    rw [run_method2_cons]
    simp only [run_method3, method3_step_eq_method2 prev lut hb s hs]
    exact ih hS' s _

/-- The total of method 2 from `prev = 0x00` is the number of occurrences in the stream. -/
theorem run_method2_eq_occurrences (S : List Nat) (hS : ∀ b ∈ S, b < 256) :
    (run_method2 m2_state 0 S).2 = (occurrences (bit_stream S) 0 (8 * S.length) : Int) := by
  induction S using List.reverseRecOn with
  | nil => rfl
  | append_singleton S b ih =>
    have hb : b < 256 := hS b (by simp)
    have hS' : ∀ x ∈ S, x < 256 := fun x hx => hS x (by simp [hx])
    have hlen : 8 * (S ++ [b]).length = 8 * S.length + 8 := by simp; omega
    rw [run_method2_append, hlen,
      occurrences_split _ (8 * S.length) _ (by omega), occurrences_before_last,
      occurrences_last, Nat.cast_add, ← ih hS']
    simp only [run_method2]
    congr 1
    have hp : (run_method2 m2_state 0 S).1 = { prev := last_byte S } := by
      have := run_method2_prev m2_state 0 S
      cases h : (run_method2 m2_state 0 S).1 with
      | mk p => rw [h] at this; simp only at this; rw [this]; rfl
    rw [hp, method2_count_eq_window _ _ hb]

/-- The state `method3_init` returns has the `prev` it was given. -/
theorem method3_init_prev (state : method3_state) :
    (method3_init state).prev = state.prev :=
  method3_init_loop_prev 1024 0 state rfl

theorem method3_state_eta (state : method3_state) :
    state = { prev := state.prev, count_lut := state.count_lut } := by
  cases state
  rfl

/-- What `method3_init` returns: the `prev` it was given and a built table. -/
theorem method3_init_spec (p : Nat) (lut0 : Mathlib.Vector Int 1024) :
    ∃ lut, method3_init { prev := p, count_lut := lut0 } = { prev := p, count_lut := lut }
      ∧ table_built lut := by
  refine ⟨(method3_init { prev := p, count_lut := lut0 }).count_lut, ?_,
    table_built_init { prev := p, count_lut := lut0 }⟩
  have h1 := method3_state_eta (method3_init { prev := p, count_lut := lut0 })
  have h2 := method3_init_prev { prev := p, count_lut := lut0 }
  exact h1.trans (congrArg
    (fun q => method3_state.mk q (method3_init { prev := p, count_lut := lut0 }).count_lut) h2)

/-- After `S`, from `prev = 0x00`, method 2 holds the last byte of `S`. -/
theorem run_method2_state (S : List Nat) :
    (run_method2 m2_state 0 S).1 = { prev := last_byte S } := by
  have h := run_method2_prev m2_state 0 S
  cases hr : (run_method2 m2_state 0 S).1 with
  | mk p =>
    rw [hr] at h
    simp only at h
    rw [h]
    rfl

/-- The number of occurrences in the stream of `S`, counted from position 2, as
the total of method 2. -/
theorem run_method2_eq_occurrences_from_two (S : List Nat) (hS : ∀ b ∈ S, b < 256) :
    (run_method2 m2_state 0 S).2 = (occurrences (bit_stream S) 2 (8 * S.length) : Int) := by
  rw [occurrences_from_two]
  exact run_method2_eq_occurrences S hS

/-- The state machine from `pos = 0`, expressed through the run of method 2. -/
theorem run_method1_initial (S : List Nat) (hS : ∀ b ∈ S, b < 256) :
    run_method1 m1_state 0 S
      = ({ pos := pos_of_prev (run_method2 m2_state 0 S).1.prev },
          (run_method2 m2_state 0 S).2) :=
  run_method1_eq_method2 S hS 0 0

/-- The lookup table from `prev = 0x00` on a built table, expressed through the
run of method 2. -/
theorem run_method3_initial (S : List Nat) (hS : ∀ b ∈ S, b < 256)
    (lut : Mathlib.Vector Int 1024) (hb : table_built lut) :
    run_method3 { prev := 0x00, count_lut := lut } 0 S
      = some ({ prev := last_byte S, count_lut := lut }, (run_method2 m2_state 0 S).2) := by
  have h := run_method3_eq_method2 S hS 0x00 lut hb 0
  have hp : (run_method2 { prev := 0x00 } 0 S).1.prev = last_byte S :=
    congrArg method2_state.prev (run_method2_state S)
  rw [hp] at h
  exact h

/-! ## Equivalence of the three matchers -/

/-- Claim C1: for every byte sequence `S`, the state machine from `pos = 0`, the
sliding bitmask from `prev = 0x00` and the lookup table from `prev = 0x00` with
the table built by `method3_init` (over any prior table contents) accumulate the
same total over `S`. -/
theorem three_matchers_same_total (S : List Nat) (hS : ∀ b ∈ S, b < 256)
    (lut0 : Mathlib.Vector Int 1024) :
    (run_method1 m1_state 0 S).2 = (run_method2 m2_state 0 S).2
      ∧ ∃ st3, run_method3 (method3_init { prev := 0x00, count_lut := lut0 }) 0 S
          = some (st3, (run_method2 m2_state 0 S).2) := by
  constructor
  · rw [run_method1_initial S hS]
  · obtain ⟨lut, hinit, hb⟩ := method3_init_spec 0x00 lut0
    rw [hinit]
    exact ⟨_, run_method3_initial S hS lut hb⟩

/-- Witness of C1 on the boundary sequence `[0xFF, 0x80]`. -/
theorem three_matchers_same_total_witness :
    (∀ b ∈ [0xFF, 0x80], b < 256)
      ∧ ((run_method1 m1_state 0 [0xFF, 0x80]).2 = (run_method2 m2_state 0 [0xFF, 0x80]).2
        ∧ ∃ st3,
          run_method3 (method3_init { prev := 0x00, count_lut := m3_state.count_lut }) 0
              [0xFF, 0x80]
            = some (st3, (run_method2 m2_state 0 [0xFF, 0x80]).2)) :=
  ⟨by decide, three_matchers_same_total [0xFF, 0x80] (by decide) m3_state.count_lut⟩

/-! ## Correctness against the bit stream -/

/-- Claim C2: for every byte sequence `S`, the total of each of the three
matchers from its initial state is the number of positions `k` with
`2 ≤ k < 8 * |S|` at which the MSB-first bit stream of `S` reads `1, 1, 0` on
bits `k - 2, k - 1, k`. -/
theorem total_eq_stream_occurrences (S : List Nat) (hS : ∀ b ∈ S, b < 256)
    (lut0 : Mathlib.Vector Int 1024) :
    (run_method1 m1_state 0 S).2 = (occurrences (bit_stream S) 2 (8 * S.length) : Int)
      ∧ (run_method2 m2_state 0 S).2 = (occurrences (bit_stream S) 2 (8 * S.length) : Int)
      ∧ ∃ st3, run_method3 (method3_init { prev := 0x00, count_lut := lut0 }) 0 S
          = some (st3, (occurrences (bit_stream S) 2 (8 * S.length) : Int)) := by
  have h2 := run_method2_eq_occurrences_from_two S hS
  refine ⟨?_, h2, ?_⟩
  · rw [run_method1_initial S hS]
    exact h2
  · obtain ⟨lut, hinit, hb⟩ := method3_init_spec 0x00 lut0
    rw [hinit, ← h2]
    exact ⟨_, run_method3_initial S hS lut hb⟩

/-- Witness of C2 on a sequence with an occurrence that straddles a byte boundary. -/
theorem total_eq_stream_occurrences_witness :
    (∀ b ∈ [0x6D, 0xFF, 0x80], b < 256)
      ∧ ((run_method1 m1_state 0 [0x6D, 0xFF, 0x80]).2
          = (occurrences (bit_stream [0x6D, 0xFF, 0x80]) 2 (8 * [0x6D, 0xFF, 0x80].length) : Int)
        ∧ (run_method2 m2_state 0 [0x6D, 0xFF, 0x80]).2
          = (occurrences (bit_stream [0x6D, 0xFF, 0x80]) 2 (8 * [0x6D, 0xFF, 0x80].length) : Int)
        ∧ ∃ st3,
          run_method3 (method3_init { prev := 0x00, count_lut := m3_state.count_lut }) 0
              [0x6D, 0xFF, 0x80]
            = some (st3,
                (occurrences (bit_stream [0x6D, 0xFF, 0x80]) 2
                  (8 * [0x6D, 0xFF, 0x80].length) : Int))) :=
  ⟨by decide,
    total_eq_stream_occurrences [0x6D, 0xFF, 0x80] (by decide) m3_state.count_lut⟩

/-- Claim C3: after `S` has been consumed from the initial state, the call that
consumes the byte `b` returns, for each of the three matchers, the number of
occurrences of `1, 1, 0` in the bit stream of `S ++ [b]` whose last bit lies
inside `b`, that is at a position `k` with `8 * |S| ≤ k < 8 * |S| + 8`. -/
theorem call_counts_occurrences_ending_in_sample (S : List Nat) (b : Nat)
    (hS : ∀ x ∈ S, x < 256) (hb : b < 256) (lut0 : Mathlib.Vector Int 1024) :
    (method1_pattern_match (run_method1 m1_state 0 S).1 b).2
        = (occurrences (bit_stream (S ++ [b])) (8 * S.length) (8 * S.length + 8) : Int)
      ∧ (method2_pattern_match (run_method2 m2_state 0 S).1 b).2
        = (occurrences (bit_stream (S ++ [b])) (8 * S.length) (8 * S.length + 8) : Int)
      ∧ ∃ st3 t3 st3', run_method3 (method3_init { prev := 0x00, count_lut := lut0 }) 0 S
            = some (st3, t3)
          ∧ method3_pattern_match st3 b
            = some (st3',
                (occurrences (bit_stream (S ++ [b])) (8 * S.length) (8 * S.length + 8) : Int)) := by
  have hocc := occurrences_last S b
  have hw := method2_count_eq_window (last_byte S) b hb
  have hst := run_method2_state S
  refine ⟨?_, ?_, ?_⟩
  · rw [run_method1_initial S hS, hst, method1_step_eq_method2 _ _ hb, hocc]
    exact hw
  · rw [hst, hocc]
    exact hw
  · obtain ⟨lut, hinit, hlut⟩ := method3_init_spec 0x00 lut0
    rw [hinit, hocc, ← hw]
    exact ⟨{ prev := last_byte S, count_lut := lut }, (run_method2 m2_state 0 S).2,
      { prev := b, count_lut := lut }, run_method3_initial S hS lut hlut,
      method3_step_eq_method2 (last_byte S) lut hlut b hb⟩

/-- Witness of C3: the call for `0x80` after `[0xFF]`. -/
theorem call_counts_occurrences_ending_in_sample_witness :
    ((∀ x ∈ [0xFF], x < 256) ∧ 0x80 < 256)
      ∧ ((method1_pattern_match (run_method1 m1_state 0 [0xFF]).1 0x80).2
          = (occurrences (bit_stream ([0xFF] ++ [0x80])) (8 * [0xFF].length)
              (8 * [0xFF].length + 8) : Int)
        ∧ (method2_pattern_match (run_method2 m2_state 0 [0xFF]).1 0x80).2
          = (occurrences (bit_stream ([0xFF] ++ [0x80])) (8 * [0xFF].length)
              (8 * [0xFF].length + 8) : Int)
        ∧ ∃ st3 t3 st3',
          run_method3 (method3_init { prev := 0x00, count_lut := m3_state.count_lut }) 0 [0xFF]
            = some (st3, t3)
          ∧ method3_pattern_match st3 0x80
            = some (st3',
                (occurrences (bit_stream ([0xFF] ++ [0x80])) (8 * [0xFF].length)
                  (8 * [0xFF].length + 8) : Int))) :=
  ⟨⟨by decide, by decide⟩,
    call_counts_occurrences_ending_in_sample [0xFF] 0x80 (by decide) (by decide)
      m3_state.count_lut⟩

/-! ## Incremental consistency -/

/-- Claim C4: for each matcher, every starting state and running total, feeding
`S1` and then `S2` to the persistent state (the state and total left by `S1`
are what `S2` starts from) gives the same final state and the same total as
feeding `S1 ++ S2` in one pass. The lookup table run never fails. -/
theorem split_feed_same_result (st1 : method1_state) (st2 : method2_state)
    (st3 : method3_state) (total : Int) (S1 S2 : List Nat) :
    run_method1 st1 total (S1 ++ S2)
        = run_method1 (run_method1 st1 total S1).1 (run_method1 st1 total S1).2 S2
      ∧ run_method2 st2 total (S1 ++ S2)
        = run_method2 (run_method2 st2 total S1).1 (run_method2 st2 total S1).2 S2
      ∧ ∃ r r', run_method3 st3 total S1 = some r
          ∧ run_method3 r.1 r.2 S2 = some r'
          ∧ run_method3 st3 total (S1 ++ S2) = some r' := by
  refine ⟨run_method1_append st1 total S1 S2, run_method2_append st2 total S1 S2, ?_⟩
  obtain ⟨r, hr, _⟩ := run_method3_some st3 total S1
  obtain ⟨r', hr', _⟩ := run_method3_some r.1 r.2 S2
  refine ⟨r, r', hr, hr', ?_⟩
  rw [run_method3_append, hr]
  exact hr'

/-! ## The lookup table -/

/-- Claim C5: for every index `c` with `0 ≤ c ≤ 1023`, the entry `count_lut[c]`
written by `method3_init` is the sum of the two counts of `method2_pattern_match`
run from a fresh state with `prev = 0x00`, first on `c >> 8` and then on
`c & 0xFF`. -/
theorem lut_entry_is_two_sliding_calls (state : method3_state) (c : Nat) (hc : c < 1024) :
    (method3_init state).count_lut.toList[c]?
      = some ((method2_pattern_match { prev := 0x00 } (c >>> 8)).2
          + (method2_pattern_match (method2_pattern_match { prev := 0x00 } (c >>> 8)).1
              (c &&& 0xFF)).2) := by
  have hhi : (c >>> 8) % 256 = c >>> 8 := by
    rw [Nat.shiftRight_eq_div_pow]; omega
  have hlo : (c &&& 0xFF) % 256 = c &&& 0xFF := by
    rw [Nat.and_pow_two_sub_one_eq_mod c 8]; omega
  rw [table_built_init state c hc]
  simp only [lut_entry, hhi, hlo]

/-- Witness of C5 at the index `0x306`, on the zero-initialised state of `main`. -/
theorem lut_entry_is_two_sliding_calls_witness :
    0x306 < 1024
      ∧ (method3_init m3_state).count_lut.toList[0x306]?
        = some ((method2_pattern_match { prev := 0x00 } (0x306 >>> 8)).2
            + (method2_pattern_match (method2_pattern_match { prev := 0x00 } (0x306 >>> 8)).1
                (0x306 &&& 0xFF)).2) :=
  ⟨by decide, lut_entry_is_two_sliding_calls m3_state 0x306 (by decide)⟩

/-- The state of `main` after `method3_init`: `prev = 0x00` and a built table. -/
theorem method3_init_m3_state :
    ∃ lut, method3_init m3_state = { prev := 0x00, count_lut := lut } ∧ table_built lut :=
  method3_init_spec 0x00 (Mathlib.Vector.replicate 1024 0)

/-! ## Concrete cases -/

/-- Claim C6: on the byte sequence `[0xFF, 0x80]` each of the three matchers,
from its initial state, returns 0 for `0xFF`, returns 1 for `0x80`, and reports
the total 1. -/
theorem boundary_case_total_one :
    ((method1_pattern_match m1_state 0xFF).2 = 0
        ∧ (method1_pattern_match (method1_pattern_match m1_state 0xFF).1 0x80).2 = 1
        ∧ (run_method1 m1_state 0 [0xFF, 0x80]).2 = 1)
      ∧ ((method2_pattern_match m2_state 0xFF).2 = 0
        ∧ (method2_pattern_match (method2_pattern_match m2_state 0xFF).1 0x80).2 = 1
        ∧ (run_method2 m2_state 0 [0xFF, 0x80]).2 = 1)
      ∧ ∃ st3 st3', method3_pattern_match (method3_init m3_state) 0xFF = some (st3, 0)
          ∧ method3_pattern_match st3 0x80 = some (st3', 1)
          ∧ run_method3 (method3_init m3_state) 0 [0xFF, 0x80] = some (st3', 1) := by
  refine ⟨by decide, by decide, ?_⟩
  obtain ⟨lut, hinit, hlut⟩ := method3_init_m3_state
  rw [hinit]
  have h1 := method3_step_eq_method2 0x00 lut hlut 0xFF (by decide)
  have h2 := method3_step_eq_method2 0xFF lut hlut 0x80 (by decide)
  have h3 := run_method3_initial [0xFF, 0x80] (by decide) lut hlut
  have e1 : (method2_pattern_match { prev := 0x00 } 0xFF).2 = 0 := by decide
  have e2 : (method2_pattern_match { prev := 0xFF } 0x80).2 = 1 := by decide
  have e3 : (run_method2 m2_state 0 [0xFF, 0x80]).2 = 1 := by decide
  have e4 : last_byte [0xFF, 0x80] = 0x80 := by decide
  rw [e1] at h1
  rw [e2] at h2
  rw [e3, e4] at h3
  exact ⟨_, _, h1, h2, h3⟩

/-- Claim C7: from the initial state, each of the three matchers returns 1 on
the single byte `0b11000000` and 0 on the single byte `0b00000000`. -/
theorem single_byte_cases :
    ((method1_pattern_match m1_state 0b11000000).2 = 1
        ∧ (method1_pattern_match m1_state 0b00000000).2 = 0)
      ∧ ((method2_pattern_match m2_state 0b11000000).2 = 1
        ∧ (method2_pattern_match m2_state 0b00000000).2 = 0)
      ∧ ∃ st3 st3', method3_pattern_match (method3_init m3_state) 0b11000000 = some (st3, 1)
          ∧ method3_pattern_match (method3_init m3_state) 0b00000000 = some (st3', 0) := by
  refine ⟨by decide, by decide, ?_⟩
  obtain ⟨lut, hinit, hlut⟩ := method3_init_m3_state
  rw [hinit]
  have h1 := method3_step_eq_method2 0x00 lut hlut 0b11000000 (by decide)
  have h2 := method3_step_eq_method2 0x00 lut hlut 0b00000000 (by decide)
  have e1 : (method2_pattern_match { prev := 0x00 } 0b11000000).2 = 1 := by decide
  have e2 : (method2_pattern_match { prev := 0x00 } 0b00000000).2 = 0 := by decide
  rw [e1] at h1
  rw [e2] at h2
  exact ⟨_, _, h1, h2⟩

/-! ## Initialisation, frame and bounds of the lookup table -/

/-- Claim C8, as stated, fails: applied to a state whose `prev` is `0x05`,
`method3_init` returns a state whose `prev` is still `0x05`, not `0x00`. -/
theorem method3_init_does_not_reset_prev :
    ¬ ((method3_init { prev := 0x05, count_lut := Mathlib.Vector.replicate 1024 0 }).prev = 0x00
      ∧ table_built
          (method3_init { prev := 0x05, count_lut := Mathlib.Vector.replicate 1024 0 }).count_lut)
    := by
  rintro ⟨h, -⟩
  rw [method3_init_prev] at h
  exact absurd h (by decide)

/-- Claim C8, amended: for every state it is applied to, `method3_init` builds
all 1024 table entries and leaves `prev` as it was; applied to the state
`{.prev = 0x00}` that `main` creates, it therefore returns a state with
`prev = 0x00` and the table built. -/
theorem method3_init_builds_table_keeps_prev (state : method3_state) :
    (method3_init state).prev = state.prev
      ∧ table_built (method3_init state).count_lut
      ∧ (method3_init m3_state).prev = 0x00
      ∧ table_built (method3_init m3_state).count_lut :=
  ⟨method3_init_prev state, table_built_init state, method3_init_prev m3_state,
    table_built_init m3_state⟩

/-- Claim C9: for every state and sample, `method3_pattern_match` returns, keeps
all entries of `count_lut` and sets `prev` to the sample; so any run of calls
returns with the table it started from, in particular the table `method3_init`
built. -/
theorem method3_pattern_match_keeps_table (state : method3_state) (sample : Nat)
    (total : Int) (S : List Nat) :
    (∃ counter, method3_pattern_match state sample
        = some ({ prev := sample, count_lut := state.count_lut }, counter))
      ∧ (∃ r, run_method3 state total S = some r ∧ r.1.count_lut = state.count_lut)
      ∧ (∃ r, run_method3 (method3_init state) total S = some r
          ∧ r.1.count_lut = (method3_init state).count_lut) :=
  ⟨method3_pattern_match_some state sample, run_method3_some state total S,
    run_method3_some (method3_init state) total S⟩

/-- Claim C10: for every previous byte and every sample the index
`((prev << 8) | sample) & 0x3FF` is below 1024, the length of `count_lut`, so
the lookup of `method3_pattern_match` is in bounds and neither a call nor a run
of calls fails. Methods 1 and 2 are total functions of the embedding: they shift
by `0, ..., 7` only and read no array. -/
theorem method3_lookup_in_bounds (state : method3_state) (prev sample : Nat)
    (total : Int) (S : List Nat) :
    method3_index prev sample < 1024
      ∧ method3_index state.prev sample < state.count_lut.toList.length
      ∧ (method3_pattern_match state sample).isSome = true
      ∧ (run_method3 state total S).isSome = true := by
  refine ⟨method3_index_lt prev sample, ?_, ?_, ?_⟩
  · rw [Mathlib.Vector.toList_length]
    exact method3_index_lt _ _
  · obtain ⟨c, hc⟩ := method3_pattern_match_some state sample
    rw [hc]
    rfl
  · obtain ⟨r, hr, _⟩ := run_method3_some state total S
    rw [hr]
    rfl

/-! ## Non-negative counters -/

/-- The switch of method 1 never decreases the counter. -/
theorem method1_switch_counter_le (state : method1_state) (counter : Int) (bit : Nat) :
    counter ≤ (method1_switch state counter bit).2 := by
  unfold method1_switch
  split_ifs <;> simp

/-- The loop of method 1 never decreases the counter. -/
theorem method1_loop_counter_le (sample : Nat) : ∀ (n : Nat) (r : method1_state × Int),
    r.2 ≤ (method1_loop sample n r).2 := by
  intro n
  induction n with
  | zero => intro r; exact le_refl _
  | succ i ih =>
    intro r
    exact le_trans (method1_switch_counter_le r.1 r.2 _) (ih _)

/-- The loop of method 2 never decreases the counter. -/
theorem method2_loop_counter_le (c : Nat) : ∀ (n : Nat) (counter : Int),
    counter ≤ method2_loop c n counter := by
  intro n
  induction n with
  | zero => intro counter; exact le_refl _
  | succ i ih =>
    intro counter
    refine le_trans ?_ (ih _)
    split_ifs
    · omega
    · exact le_refl _

theorem method1_count_nonneg (state : method1_state) (sample : Nat) :
    0 ≤ (method1_pattern_match state sample).2 :=
  method1_loop_counter_le sample 8 (state, 0)

theorem method2_count_nonneg (state : method2_state) (sample : Nat) :
    0 ≤ (method2_pattern_match state sample).2 :=
  method2_loop_counter_le _ 8 0

theorem lut_entry_nonneg (c : Nat) : 0 ≤ lut_entry c := by
  unfold lut_entry
  exact Int.add_nonneg (method2_count_nonneg _ _) (method2_count_nonneg _ _)

/-- One call of method 3 on a built table, for any previous byte and sample:
the entry read is the one `method3_init` computed for the index. -/
theorem method3_step_built (prev : Nat) (lut : Mathlib.Vector Int 1024)
    (hb : table_built lut) (sample : Nat) :
    method3_pattern_match { prev := prev, count_lut := lut } sample
      = some ({ prev := sample, count_lut := lut }, lut_entry (method3_index prev sample)) := by
  unfold method3_pattern_match
  simp only [hb _ (method3_index_lt prev sample)]

/-- On a built table the total of method 3 never decreases along a run. -/
theorem run_method3_total_le (lut : Mathlib.Vector Int 1024) (hb : table_built lut)
    (S : List Nat) : ∀ (prev : Nat) (total : Int),
    ∃ p t, run_method3 { prev := prev, count_lut := lut } total S
        = some ({ prev := p, count_lut := lut }, t) ∧ total ≤ t := by
  induction S with
  | nil => intro prev total; exact ⟨prev, total, rfl, le_refl _⟩
  | cons s S ih =>
    intro prev total
    obtain ⟨p, t, hr, ht⟩ := ih s (total + lut_entry (method3_index prev s))
    refine ⟨p, t, ?_, ?_⟩
    · simp only [run_method3, method3_step_built prev lut hb s]
      exact hr
    · have := lut_entry_nonneg (method3_index prev s)
      omega

theorem run_method1_snoc (state : method1_state) (total : Int) (S : List Nat) (b : Nat) :
    (run_method1 state total (S ++ [b])).2
      = (run_method1 state total S).2
        + (method1_pattern_match (run_method1 state total S).1 b).2 := by
  rw [run_method1_append]
  rfl

theorem run_method2_snoc (state : method2_state) (total : Int) (S : List Nat) (b : Nat) :
    (run_method2 state total (S ++ [b])).2
      = (run_method2 state total S).2
        + (method2_pattern_match (run_method2 state total S).1 b).2 := by
  rw [run_method2_append]
  rfl

/-- Claim C11: every call of each of the three matchers returns a count that is
`≥ 0` (method 1 from any `pos`, method 2 from any `prev`, method 3 from any
`prev` on the table built by `method3_init`), and the running total is
non-decreasing: the total over `S ++ [b]` is at least the total over `S`. -/
theorem counts_nonneg_totals_monotone (st1 : method1_state) (st2 : method2_state)
    (prev : Nat) (lut0 : Mathlib.Vector Int 1024) (sample : Nat) (S : List Nat) (b : Nat) :
    0 ≤ (method1_pattern_match st1 sample).2
      ∧ 0 ≤ (method2_pattern_match st2 sample).2
      ∧ (∃ st3' c, method3_pattern_match
            (method3_init { prev := prev, count_lut := lut0 }) sample = some (st3', c)
          ∧ 0 ≤ c)
      ∧ (run_method1 m1_state 0 S).2 ≤ (run_method1 m1_state 0 (S ++ [b])).2
      ∧ (run_method2 m2_state 0 S).2 ≤ (run_method2 m2_state 0 (S ++ [b])).2
      ∧ (∃ r r', run_method3 (method3_init { prev := 0x00, count_lut := lut0 }) 0 S = some r
          ∧ run_method3 (method3_init { prev := 0x00, count_lut := lut0 }) 0 (S ++ [b])
              = some r'
          ∧ r.2 ≤ r'.2) := by
  refine ⟨method1_count_nonneg st1 sample, method2_count_nonneg st2 sample, ?_, ?_, ?_, ?_⟩
  · obtain ⟨lut, hinit, hlut⟩ := method3_init_spec prev lut0
    rw [hinit]
    exact ⟨_, _, method3_step_built prev lut hlut sample, lut_entry_nonneg _⟩
  · rw [run_method1_snoc]
    have := method1_count_nonneg (run_method1 m1_state 0 S).1 b
    omega
  · rw [run_method2_snoc]
    have := method2_count_nonneg (run_method2 m2_state 0 S).1 b
    omega
  · obtain ⟨lut, hinit, hlut⟩ := method3_init_spec 0x00 lut0
    rw [hinit]
    obtain ⟨p, t, hr, _⟩ := run_method3_total_le lut hlut S 0x00 0
    obtain ⟨p', t', hr', ht'⟩ := run_method3_total_le lut hlut [b] p t
    refine ⟨({ prev := p, count_lut := lut }, t), ({ prev := p', count_lut := lut }, t'),
      hr, ?_, ht'⟩
    rw [run_method3_append, hr]
    exact hr'

/-! ## Empty input -/

theorem run_method3_nil (state : method3_state) (total : Int) :
    run_method3 state total [] = some (state, total) := rfl

/-- Claim C12: when zero bytes are processed, the total is 0 for each of the
three matchers and each matcher's state is still its initial state. -/
theorem empty_input_total_zero :
    run_method1 m1_state 0 [] = (m1_state, 0)
      ∧ run_method2 m2_state 0 [] = (m2_state, 0)
      ∧ run_method3 (method3_init m3_state) 0 [] = some (method3_init m3_state, 0) :=
  ⟨rfl, rfl, run_method3_nil (method3_init m3_state) 0⟩

/-! ## Call-by-call agreement of methods 2 and 3 -/

/-- Claim C13: for every previous byte `p` and every sample `s`, method 3 on a
state with `prev = p` and the table built by `method3_init` returns the count
method 2 returns from `prev = p`, both leave `prev = s`, and the index looked
up, `((p << 8) | s) & 0x3FF`, holds the count of method 2 for `(p, s)`. -/
theorem method3_agrees_with_method2_per_call (p s : Nat) (hs : s < 256)
    (lut0 : Mathlib.Vector Int 1024) :
    (∃ st3', method3_pattern_match (method3_init { prev := p, count_lut := lut0 }) s
          = some (st3', (method2_pattern_match { prev := p } s).2)
        ∧ st3'.prev = s)
      ∧ (method2_pattern_match { prev := p } s).1.prev = s
      ∧ (method3_init { prev := p, count_lut := lut0 }).count_lut.toList[method3_index p s]?
          = some (method2_pattern_match { prev := p } s).2 := by
  refine ⟨?_, rfl, ?_⟩
  · obtain ⟨lut, hinit, hlut⟩ := method3_init_spec p lut0
    rw [hinit]
    exact ⟨_, method3_step_eq_method2 p lut hlut s hs, rfl⟩
  · rw [table_built_init _ _ (method3_index_lt p s), lut_entry_index p s hs]

/-- Witness of C13 at `p = 0xFF`, `s = 0x80`. -/
theorem method3_agrees_with_method2_per_call_witness :
    0x80 < 256
      ∧ ((∃ st3', method3_pattern_match
              (method3_init { prev := 0xFF, count_lut := m3_state.count_lut }) 0x80
            = some (st3', (method2_pattern_match { prev := 0xFF } 0x80).2)
          ∧ st3'.prev = 0x80)
        ∧ (method2_pattern_match { prev := 0xFF } 0x80).1.prev = 0x80
        ∧ (method3_init { prev := 0xFF, count_lut := m3_state.count_lut }).count_lut.toList[
              method3_index 0xFF 0x80]?
            = some (method2_pattern_match { prev := 0xFF } 0x80).2) :=
  ⟨by decide, method3_agrees_with_method2_per_call 0xFF 0x80 (by decide) m3_state.count_lut⟩

set_option maxRecDepth 100000 in
/-- Method 1 against the specified automaton, from state 0, over all bytes. -/
theorem method1_refines_spec_reset : ∀ s, s < 256 →
    method1_pattern_match { pos := spec_state.to_pos .reset } s
      = ({ pos := (spec_run .reset (byte_bits s)).1.to_pos },
          ((spec_run .reset (byte_bits s)).2 : Int)) := by
  decide

set_option maxRecDepth 100000 in
/-- Method 1 against the specified automaton, from state 1, over all bytes. -/
theorem method1_refines_spec_first : ∀ s, s < 256 →
    method1_pattern_match { pos := spec_state.to_pos .first_one } s
      = ({ pos := (spec_run .first_one (byte_bits s)).1.to_pos },
          ((spec_run .first_one (byte_bits s)).2 : Int)) := by
  decide

set_option maxRecDepth 100000 in
/-- Method 1 against the specified automaton, from state 2, over all bytes. -/
theorem method1_refines_spec_second : ∀ s, s < 256 →
    method1_pattern_match { pos := spec_state.to_pos .second_one } s
      = ({ pos := (spec_run .second_one (byte_bits s)).1.to_pos },
          ((spec_run .second_one (byte_bits s)).2 : Int)) := by
  decide

/-- Claim C14: for every automaton position (state 0, 1 or 2) and every sample,
`method1_pattern_match` is the specified automaton folded over the 8 bits of the
sample, bit 7 first: the stored `pos` is the number of the final state and the
returned count is the number of steps made in state 2 on a 0 bit. -/
theorem method1_is_specified_automaton (q : spec_state) (s : Nat) (hs : s < 256) :
    method1_pattern_match { pos := q.to_pos } s
      = ({ pos := (spec_run q (byte_bits s)).1.to_pos },
          ((spec_run q (byte_bits s)).2 : Int)) := by
  cases q
  · exact method1_refines_spec_reset s hs
  · exact method1_refines_spec_first s hs
  · exact method1_refines_spec_second s hs

/-- Witness of C14: state 2 on the sample `0b01101101`. -/
theorem method1_is_specified_automaton_witness :
    0b01101101 < 256
      ∧ method1_pattern_match { pos := spec_state.second_one.to_pos } 0b01101101
        = ({ pos := (spec_run spec_state.second_one (byte_bits 0b01101101)).1.to_pos },
            ((spec_run spec_state.second_one (byte_bits 0b01101101)).2 : Int)) :=
  ⟨by decide, method1_is_specified_automaton spec_state.second_one 0b01101101 (by decide)⟩

/-! ## The automaton position -/

/-- The switch of method 1 keeps the position in `{0, 1, 2}`. -/
theorem method1_switch_pos (state : method1_state) (counter : Int) (bit : Nat)
    (h : state.pos = 0 ∨ state.pos = 1 ∨ state.pos = 2) :
    (method1_switch state counter bit).1.pos = 0
      ∨ (method1_switch state counter bit).1.pos = 1
      ∨ (method1_switch state counter bit).1.pos = 2 := by
  unfold method1_switch
  rcases h with h | h | h <;> rw [h] <;> split_ifs <;> simp_all

/-- The loop of method 1 keeps the position in `{0, 1, 2}`. -/
theorem method1_loop_pos (sample : Nat) : ∀ (n : Nat) (r : method1_state × Int),
    (r.1.pos = 0 ∨ r.1.pos = 1 ∨ r.1.pos = 2) →
    (method1_loop sample n r).1.pos = 0 ∨ (method1_loop sample n r).1.pos = 1
      ∨ (method1_loop sample n r).1.pos = 2 := by
  intro n
  induction n with
  | zero => intro r h; exact h
  | succ i ih =>
    intro r h
    exact ih _ (method1_switch_pos r.1 r.2 _ h)

/-- Every position on which the switch is executed is in `{0, 1, 2}`. -/
theorem method1_loop_positions_ok (sample : Nat) : ∀ (n : Nat) (r : method1_state × Int),
    (r.1.pos = 0 ∨ r.1.pos = 1 ∨ r.1.pos = 2) →
    ∀ p ∈ method1_loop_positions sample n r, p = 0 ∨ p = 1 ∨ p = 2 := by
  intro n
  induction n with
  | zero => intro r _ p hp; simp [method1_loop_positions] at hp
  | succ i ih =>
    intro r h p hp
    simp only [method1_loop_positions, List.mem_cons] at hp
    rcases hp with hp | hp
    · rw [hp]; exact h
    · exact ih _ (method1_switch_pos r.1 r.2 _ h) p hp

/-- A run of method 1 keeps the position in `{0, 1, 2}`. -/
theorem run_method1_pos (S : List Nat) : ∀ (state : method1_state) (total : Int),
    (state.pos = 0 ∨ state.pos = 1 ∨ state.pos = 2) →
    (run_method1 state total S).1.pos = 0 ∨ (run_method1 state total S).1.pos = 1
      ∨ (run_method1 state total S).1.pos = 2 := by
  induction S with
  | nil => intro state total h; exact h
  | cons s S ih =>
    intro state total h
    rw [run_method1_cons]
    exact ih _ _ (method1_loop_pos s 8 (state, 0) h)

/-- Claim C16: if `pos` is in `{0, 1, 2}` before a call of `method1_pattern_match`
then it is in `{0, 1, 2}` after it, for every sample, and every execution of the
`switch` during the call sees a position in `{0, 1, 2}`, so the `default` branch
is not taken; from the initial `pos = 0` the position is in `{0, 1, 2}` after
any byte sequence. -/
theorem method1_pos_stays_in_range (state : method1_state) (sample : Nat) (S : List Nat)
    (h : state.pos = 0 ∨ state.pos = 1 ∨ state.pos = 2) :
    ((method1_pattern_match state sample).1.pos = 0
        ∨ (method1_pattern_match state sample).1.pos = 1
        ∨ (method1_pattern_match state sample).1.pos = 2)
      ∧ (∀ p ∈ method1_loop_positions sample 8 (state, 0), p = 0 ∨ p = 1 ∨ p = 2)
      ∧ ((run_method1 m1_state 0 S).1.pos = 0 ∨ (run_method1 m1_state 0 S).1.pos = 1
        ∨ (run_method1 m1_state 0 S).1.pos = 2) :=
  ⟨method1_loop_pos sample 8 (state, 0) h, method1_loop_positions_ok sample 8 (state, 0) h,
    run_method1_pos S m1_state 0 (Or.inl rfl)⟩

/-- Witness of C16: from `pos = 2` on the sample `0x6D`, and the run over `[0xFF, 0x80]`. -/
theorem method1_pos_stays_in_range_witness :
    ((2 : Int) = 0 ∨ (2 : Int) = 1 ∨ (2 : Int) = 2)
      ∧ (((method1_pattern_match { pos := 2 } 0x6D).1.pos = 0
          ∨ (method1_pattern_match { pos := 2 } 0x6D).1.pos = 1
          ∨ (method1_pattern_match { pos := 2 } 0x6D).1.pos = 2)
        ∧ (∀ p ∈ method1_loop_positions 0x6D 8 ({ pos := 2 }, 0), p = 0 ∨ p = 1 ∨ p = 2)
        ∧ ((run_method1 m1_state 0 [0xFF, 0x80]).1.pos = 0
          ∨ (run_method1 m1_state 0 [0xFF, 0x80]).1.pos = 1
          ∨ (run_method1 m1_state 0 [0xFF, 0x80]).1.pos = 2)) :=
  ⟨by decide, method1_pos_stays_in_range { pos := 2 } 0x6D [0xFF, 0x80] (by decide)⟩

/-- The position matching a byte, read from its two low bits. -/
theorem pos_of_prev_testBit (b : Nat) :
    pos_of_prev b = if b.testBit 0 then (if b.testBit 1 then 2 else 1) else 0 := by
  have h1 : b &&& 1 = b % 2 := Nat.and_pow_two_sub_one_eq_mod b 1
  have h3 : b &&& 3 = b % 4 := Nat.and_pow_two_sub_one_eq_mod b 2
  have t0 : b.testBit 0 = decide (b % 2 = 1) := by
    simp [Nat.testBit_to_div_mod]
  have t1 : b.testBit 1 = decide (b / 2 % 2 = 1) := by
    simp [Nat.testBit_to_div_mod]
  unfold pos_of_prev
  rw [h1, h3, t0, t1]
  by_cases c0 : b % 2 = 1
  · by_cases c1 : b / 2 % 2 = 1
    · have e1 : ¬ b % 2 = 0 := by omega
      have e2 : ¬ b % 4 = 1 := by omega
      simp [c0, c1, e1, e2]
    · have e1 : ¬ b % 2 = 0 := by omega
      have e2 : b % 4 = 1 := by omega
      simp [c0, c1, e2]
  · have e1 : b % 2 = 0 := by omega
    simp [e1]

/-- The trailing 1 bits of a stream that ends with the byte `b`, capped at 2. -/
theorem trailing_ones_snoc (S : List Nat) (b : Nat) :
    min (trailing_ones (bit_stream (S ++ [b]))) 2
      = if b.testBit 0 then (if b.testBit 1 then 2 else 1) else 0 := by
  have hrev : (bit_stream (S ++ [b])).reverse
      = b.testBit 0 :: b.testBit 1 :: ([b.testBit 2, b.testBit 3, b.testBit 4, b.testBit 5,
          b.testBit 6, b.testBit 7] ++ (bit_stream S).reverse) := by
    rw [bit_stream_append, bit_stream_singleton, List.reverse_append]
    rfl
  unfold trailing_ones
  rw [hrev]
  cases b.testBit 0 <;> cases b.testBit 1 <;> simp [List.takeWhile]

/-- The position matching the last byte is the number of trailing 1 bits of the
stream, capped at 2. -/
theorem pos_of_prev_last_byte (S : List Nat) :
    pos_of_prev (last_byte S) = ((min (trailing_ones (bit_stream S)) 2 : Nat) : Int) := by
  rcases List.eq_nil_or_concat S with h0 | ⟨S', b, h1⟩
  · subst h0
    rfl
  · rw [h1, List.concat_eq_append, trailing_ones_snoc]
    have hl : last_byte (S' ++ [b]) = b := by simp [last_byte]
    rw [hl, pos_of_prev_testBit]
    cases b.testBit 0 <;> cases b.testBit 1 <;> rfl

/-- The position matching `prev`, characterised by the low bits of `prev`. -/
theorem pos_of_prev_cases (prev : Nat) :
    (pos_of_prev prev = 0 ↔ prev &&& 1 = 0)
      ∧ (pos_of_prev prev = 1 ↔ prev &&& 3 = 1)
      ∧ (pos_of_prev prev = 2 ↔ prev &&& 3 = 3) := by
  have h1 : prev &&& 1 = prev % 2 := Nat.and_pow_two_sub_one_eq_mod prev 1
  have h3 : prev &&& 3 = prev % 4 := Nat.and_pow_two_sub_one_eq_mod prev 2
  unfold pos_of_prev
  rw [h1, h3]
  by_cases c0 : prev % 2 = 0
  · have e1 : ¬ prev % 4 = 1 := by omega
    have e2 : ¬ prev % 4 = 3 := by omega
    simp [c0, e1, e2]
  · by_cases c1 : prev % 4 = 1
    · simp [c0, c1]
    · have e2 : prev % 4 = 3 := by omega
      simp [c0, c1, e2]

/-- Claim C15: for every byte sequence `S`, after `method1_pattern_match` has
consumed `S` from `pos = 0`, `pos` is the number of consecutive 1 bits at the end
of the MSB-first bit stream of `S`, capped at 2; and, with `prev` the state of
method 2 after the same `S` from `prev = 0x00`: `pos = 0` iff `prev & 1 = 0`,
`pos = 1` iff `prev & 3 = 1`, `pos = 2` iff `prev & 3 = 3`. -/
theorem pos_is_trailing_ones_capped (S : List Nat) (hS : ∀ b ∈ S, b < 256) :
    (run_method1 m1_state 0 S).1.pos = ((min (trailing_ones (bit_stream S)) 2 : Nat) : Int)
      ∧ ((run_method1 m1_state 0 S).1.pos = 0 ↔ (run_method2 m2_state 0 S).1.prev &&& 1 = 0)
      ∧ ((run_method1 m1_state 0 S).1.pos = 1 ↔ (run_method2 m2_state 0 S).1.prev &&& 3 = 1)
      ∧ ((run_method1 m1_state 0 S).1.pos = 2 ↔ (run_method2 m2_state 0 S).1.prev &&& 3 = 3)
    := by
  have hpos : (run_method1 m1_state 0 S).1.pos
      = pos_of_prev (run_method2 m2_state 0 S).1.prev := by
    rw [run_method1_initial S hS]
  rw [hpos]
  refine ⟨?_, pos_of_prev_cases _⟩
  rw [run_method2_state S]
  exact pos_of_prev_last_byte S

/-- Witness of C15 on a sequence whose stream ends with nine 1 bits. -/
theorem pos_is_trailing_ones_capped_witness :
    (∀ b ∈ [0x01, 0xFF], b < 256)
      ∧ ((run_method1 m1_state 0 [0x01, 0xFF]).1.pos
          = ((min (trailing_ones (bit_stream [0x01, 0xFF])) 2 : Nat) : Int)
        ∧ ((run_method1 m1_state 0 [0x01, 0xFF]).1.pos = 0
          ↔ (run_method2 m2_state 0 [0x01, 0xFF]).1.prev &&& 1 = 0)
        ∧ ((run_method1 m1_state 0 [0x01, 0xFF]).1.pos = 1
          ↔ (run_method2 m2_state 0 [0x01, 0xFF]).1.prev &&& 3 = 1)
        ∧ ((run_method1 m1_state 0 [0x01, 0xFF]).1.pos = 2
          ↔ (run_method2 m2_state 0 [0x01, 0xFF]).1.prev &&& 3 = 3)) :=
  ⟨by decide, pos_is_trailing_ones_capped [0x01, 0xFF] (by decide)⟩

/-! ## Dependence on the two low bits of the previous byte -/

/-- Claim C17: the count returned by `method2_pattern_match` depends on the
previous byte only through its 2 low-order bits: from previous bytes `p` and
`p'` with `p & 3 = p' & 3` the call returns the same count on every sample, and
in both cases leaves `prev` equal to the sample. -/
theorem method2_count_low_two_bits (p p' s : Nat) (hp : p &&& 3 = p' &&& 3) (hs : s < 256) :
    (method2_pattern_match { prev := p } s).2 = (method2_pattern_match { prev := p' } s).2
      ∧ (method2_pattern_match { prev := p } s).1.prev = s
      ∧ (method2_pattern_match { prev := p' } s).1.prev = s := by
  refine ⟨?_, rfl, rfl⟩
  have h3 : ∀ x : Nat, x &&& 3 = x % 4 := fun x => Nat.and_pow_two_sub_one_eq_mod x 2
  rw [h3, h3] at hp
  rw [method2_count_mod4 p s hs, method2_count_mod4 p' s hs, hp]

/-- Witness of C17: the previous bytes `0xFF` and `0x03` on the sample `0x6D`. -/
theorem method2_count_low_two_bits_witness :
    (0xFF &&& 3 = 0x03 &&& 3 ∧ 0x6D < 256)
      ∧ ((method2_pattern_match { prev := 0xFF } 0x6D).2
          = (method2_pattern_match { prev := 0x03 } 0x6D).2
        ∧ (method2_pattern_match { prev := 0xFF } 0x6D).1.prev = 0x6D
        ∧ (method2_pattern_match { prev := 0x03 } 0x6D).1.prev = 0x6D) :=
  ⟨⟨by decide, by decide⟩, method2_count_low_two_bits 0xFF 0x03 0x6D (by decide) (by decide)⟩

/-! ## The content of the table -/

set_option maxRecDepth 100000 in
/-- The value computed for index `c` is the number of 3-bit windows of `c`,
at shifts `0, ..., 7`, that equal `0b110`; checked over the 1024 indices. -/
theorem lut_entry_eq_window_card : ∀ c, c < 1024 →
    lut_entry c = (((Finset.range 8).filter (fun i => (c >>> i) &&& 7 = 6)).card : Int) := by
  decide

/-- Claim C18: for every `c` with `0 ≤ c ≤ 1023`, the first pass of the table
build, over the high byte `c >> 8` from `prev = 0x00`, returns 0, and the entry
`method3_init` stores at `c` is the number of `i` in `0, ..., 7` with
`((c >> i) & 7) = 6`. -/
theorem lut_entry_counts_low_windows (state : method3_state) (c : Nat) (hc : c < 1024) :
    (method2_pattern_match { prev := 0x00 } (c >>> 8)).2 = 0
      ∧ (method3_init state).count_lut.toList[c]?
        = some (((Finset.range 8).filter (fun i => (c >>> i) &&& 7 = 6)).card : Int) := by
  constructor
  · have h4 : c >>> 8 < 4 := by
      rw [Nat.shiftRight_eq_div_pow]; omega
    exact first_pass_zero _ h4
  · rw [table_built_init state c hc, lut_entry_eq_window_card c hc]

/-- Witness of C18 at the index `0x3B6`. -/
theorem lut_entry_counts_low_windows_witness :
    0x3B6 < 1024
      ∧ ((method2_pattern_match { prev := 0x00 } (0x3B6 >>> 8)).2 = 0
        ∧ (method3_init m3_state).count_lut.toList[0x3B6]?
          = some (((Finset.range 8).filter (fun i => (0x3B6 >>> i) &&& 7 = 6)).card : Int)) :=
  ⟨by decide, lut_entry_counts_low_windows m3_state 0x3B6 (by decide)⟩

/-! ## The largest count of one call -/

set_option maxRecDepth 100000 in
/-- Method 2 returns at most 3, checked over the 4 contexts and 256 samples. -/
theorem method2_count_le_three_small : ∀ p, p < 4 → ∀ s, s < 256 →
    (method2_pattern_match { prev := p } s).2 ≤ 3 := by
  decide

/-- Method 2 returns at most 3 on every byte. -/
theorem method2_count_le_three (p s : Nat) (hs : s < 256) :
    (method2_pattern_match { prev := p } s).2 ≤ 3 := by
  rw [method2_count_mod4 p s hs]
  exact method2_count_le_three_small (p % 4) (Nat.mod_lt _ (by decide)) s hs

/-- Method 1 returns at most 3 on every byte, from a position in `{0, 1, 2}`. -/
theorem method1_count_le_three (state : method1_state) (s : Nat) (hs : s < 256)
    (h : state.pos = 0 ∨ state.pos = 1 ∨ state.pos = 2) :
    (method1_pattern_match state s).2 ≤ 3 := by
  cases state with
  | mk pos =>
    simp only at h
    rcases h with h | h | h
    · subst h
      have e := method1_step_eq_method2 0 s hs
      have e' : method1_pattern_match { pos := 0 } s
          = ({ pos := pos_of_prev s }, (method2_pattern_match { prev := 0 } s).2) := e
      rw [e']
      exact method2_count_le_three 0 s hs
    · subst h
      have e := method1_step_eq_method2 1 s hs
      have e' : method1_pattern_match { pos := 1 } s
          = ({ pos := pos_of_prev s }, (method2_pattern_match { prev := 1 } s).2) := e
      rw [e']
      exact method2_count_le_three 1 s hs
    · subst h
      have e := method1_step_eq_method2 3 s hs
      have e' : method1_pattern_match { pos := 2 } s
          = ({ pos := pos_of_prev s }, (method2_pattern_match { prev := 3 } s).2) := e
      rw [e']
      exact method2_count_le_three 3 s hs

/-- The total of method 2 grows by at most 3 per byte. -/
theorem run_method2_total_le (S : List Nat) (hS : ∀ b ∈ S, b < 256) :
    ∀ (state : method2_state) (total : Int),
    (run_method2 state total S).2 ≤ total + 3 * (S.length : Int) := by
  induction S with
  | nil => intro state total; simp [run_method2]
  | cons s S ih =>
    intro state total
    have hs : s < 256 := hS s (List.mem_cons_self _ _)
    have hS' : ∀ b ∈ S, b < 256 := fun b hb => hS b (List.mem_cons_of_mem _ hb)
    rw [run_method2_cons]
    have h1 := ih hS' { prev := s } (total + (method2_pattern_match state s).2)
    have h2 : (method2_pattern_match state s).2 ≤ 3 := by
      cases state with
      | mk p => exact method2_count_le_three p s hs
    have h3 : ((s :: S).length : Int) = (S.length : Int) + 1 := by simp
    rw [h3]
    omega

/-- Claim C19: the largest count a single call can return is exactly 3. From a
position in `{0, 1, 2}` (method 1), from any previous byte (method 2) and from
any previous byte on the table built by `method3_init` (method 3), a call on a
byte returns at most 3; 3 is returned on the sample `0b01101101` from
`pos = 2`, respectively `prev = 0x03`; and the total over `n` bytes from the
initial state is at most `3 * n`. -/
theorem max_count_per_call_is_three (st1 : method1_state) (p s : Nat) (S : List Nat)
    (lut0 : Mathlib.Vector Int 1024)
    (h1 : st1.pos = 0 ∨ st1.pos = 1 ∨ st1.pos = 2) (hs : s < 256)
    (hS : ∀ b ∈ S, b < 256) :
    ((method1_pattern_match st1 s).2 ≤ 3
        ∧ (method2_pattern_match { prev := p } s).2 ≤ 3
        ∧ ∃ st3' c, method3_pattern_match (method3_init { prev := p, count_lut := lut0 }) s
            = some (st3', c) ∧ c ≤ 3)
      ∧ ((method1_pattern_match { pos := 2 } 0b01101101).2 = 3
        ∧ (method2_pattern_match { prev := 0x03 } 0b01101101).2 = 3
        ∧ ∃ st3', method3_pattern_match
            (method3_init { prev := 0x03, count_lut := lut0 }) 0b01101101 = some (st3', 3))
      ∧ ((run_method1 m1_state 0 S).2 ≤ 3 * (S.length : Int)
        ∧ (run_method2 m2_state 0 S).2 ≤ 3 * (S.length : Int)
        ∧ ∃ st3 t, run_method3 (method3_init { prev := 0x00, count_lut := lut0 }) 0 S
            = some (st3, t) ∧ t ≤ 3 * (S.length : Int)) := by
  have htot : (run_method2 m2_state 0 S).2 ≤ 3 * (S.length : Int) := by
    have := run_method2_total_le S hS m2_state 0
    omega
  refine ⟨⟨method1_count_le_three st1 s hs h1, method2_count_le_three p s hs, ?_⟩,
    ⟨by decide, by decide, ?_⟩, ⟨?_, htot, ?_⟩⟩
  · obtain ⟨lut, hinit, hlut⟩ := method3_init_spec p lut0
    rw [hinit]
    exact ⟨_, _, method3_step_eq_method2 p lut hlut s hs, method2_count_le_three p s hs⟩
  · obtain ⟨lut, hinit, hlut⟩ := method3_init_spec 0x03 lut0
    rw [hinit]
    have h := method3_step_eq_method2 0x03 lut hlut 0b01101101 (by decide)
    have e : (method2_pattern_match { prev := 0x03 } 0b01101101).2 = 3 := by decide
    rw [e] at h
    exact ⟨_, h⟩
  · rw [run_method1_initial S hS]
    exact htot
  · obtain ⟨lut, hinit, hlut⟩ := method3_init_spec 0x00 lut0
    rw [hinit]
    exact ⟨_, _, run_method3_initial S hS lut hlut, htot⟩

/-- Witness of C19: from `pos = 2`, `prev = 0x03` on `0x6D`, and the run over
`[0x6D, 0xB6]`. -/
theorem max_count_per_call_is_three_witness :
    (((2 : Int) = 0 ∨ (2 : Int) = 1 ∨ (2 : Int) = 2) ∧ 0x6D < 256
        ∧ ∀ b ∈ [0x6D, 0xB6], b < 256)
      ∧ (((method1_pattern_match { pos := 2 } 0x6D).2 ≤ 3
          ∧ (method2_pattern_match { prev := 0x03 } 0x6D).2 ≤ 3
          ∧ ∃ st3' c, method3_pattern_match
              (method3_init { prev := 0x03, count_lut := m3_state.count_lut }) 0x6D
            = some (st3', c) ∧ c ≤ 3)
        ∧ ((method1_pattern_match { pos := 2 } 0b01101101).2 = 3
          ∧ (method2_pattern_match { prev := 0x03 } 0b01101101).2 = 3
          ∧ ∃ st3', method3_pattern_match
              (method3_init { prev := 0x03, count_lut := m3_state.count_lut }) 0b01101101
            = some (st3', 3))
        ∧ ((run_method1 m1_state 0 [0x6D, 0xB6]).2 ≤ 3 * ([0x6D, 0xB6].length : Int)
          ∧ (run_method2 m2_state 0 [0x6D, 0xB6]).2 ≤ 3 * ([0x6D, 0xB6].length : Int)
          ∧ ∃ st3 t,
            run_method3 (method3_init { prev := 0x00, count_lut := m3_state.count_lut }) 0
                [0x6D, 0xB6]
              = some (st3, t) ∧ t ≤ 3 * ([0x6D, 0xB6].length : Int))) :=
  ⟨⟨by decide, by decide, by decide⟩,
    max_count_per_call_is_three { pos := 2 } 0x03 0x6D [0x6D, 0xB6] m3_state.count_lut
      (by decide) (by decide) (by decide)⟩

/-! ## Termination and writes of the table build -/

theorem method3_init_loop_trace_unfold (state : method3_state) (c : Nat) (h : c < 1024) :
    method3_init_loop_trace state c
      = ((method3_init_loop_trace
            { state with count_lut := state.count_lut.set ⟨c, h⟩ (lut_entry c) } (c + 1)).1,
          c :: (method3_init_loop_trace
            { state with count_lut := state.count_lut.set ⟨c, h⟩ (lut_entry c) } (c + 1)).2)
    := by
  rw [method3_init_loop_trace, dif_pos h]
  have : (c + 1) % 65536 = c + 1 := by omega
  simp only [this, lut_entry]

theorem method3_init_loop_trace_exit (state : method3_state) (c : Nat) (h : ¬ c < 1024) :
    method3_init_loop_trace state c = (state, []) := by
  rw [method3_init_loop_trace, dif_neg h]

/-- The traced loop computes the state the loop of `method3_init` computes. -/
theorem method3_init_loop_trace_fst : ∀ (n c : Nat) (state : method3_state), 1024 - c = n →
    (method3_init_loop_trace state c).1 = method3_init_loop state c := by
  intro n
  induction n with
  | zero =>
    intro c state hn
    rw [method3_init_loop_trace_exit state c (by omega),
      method3_init_loop_exit state c (by omega)]
  | succ n ih =>
    intro c state hn
    rw [method3_init_loop_trace_unfold state c (by omega),
      method3_init_loop_unfold state c (by omega)]
    exact ih (c + 1) _ (by omega)

/-- Entered at `c ≤ 1024`, the loop runs `1024 - c` iterations, on the values
`c, c + 1, ..., 1023` of `combined_samples`. -/
theorem method3_init_loop_trace_snd : ∀ (n c : Nat) (state : method3_state), 1024 - c = n →
    (method3_init_loop_trace state c).2 = List.range' c n := by
  intro n
  induction n with
  | zero =>
    intro c state hn
    rw [method3_init_loop_trace_exit state c (by omega)]
    rfl
  | succ n ih =>
    intro c state hn
    rw [method3_init_loop_trace_unfold state c (by omega), List.range'_succ]
    simp only
    rw [ih (c + 1) _ (by omega)]

/-- Claim C20: `method3_init` terminates on every state (it is a total function,
its loop decreasing `1024 - combined_samples`); the loop runs exactly 1024
iterations; `combined_samples` takes the values `0, ..., 1023` in order, each
once, and its increment never wraps around `65536`; every index `0, ..., 1023`
of the table is written exactly once and no other index is written. -/
theorem method3_init_runs_1024_iterations (state : method3_state) (k : Nat) :
    (method3_init_loop_trace state 0).1 = method3_init state
      ∧ (method3_init_loop_trace state 0).2 = List.range 1024
      ∧ (method3_init_loop_trace state 0).2.length = 1024
      ∧ (∀ c ∈ (method3_init_loop_trace state 0).2, (c + 1) % 65536 = c + 1)
      ∧ (method3_init_loop_trace state 0).2.count k = if k < 1024 then 1 else 0 := by
  have htr : (method3_init_loop_trace state 0).2 = List.range 1024 := by
    rw [method3_init_loop_trace_snd 1024 0 state rfl, List.range_eq_range']
  refine ⟨method3_init_loop_trace_fst 1024 0 state rfl, htr, ?_, ?_, ?_⟩
  · rw [htr, List.length_range]
  · intro c hc
    rw [htr, List.mem_range] at hc
    omega
  · rw [htr]
    by_cases hk : k < 1024
    · rw [if_pos hk]
      exact List.count_eq_one_of_mem (List.nodup_range 1024) (List.mem_range.mpr hk)
    · rw [if_neg hk]
      exact List.count_eq_zero_of_not_mem (fun h => hk (List.mem_range.mp h))

end BitPattern
